import Mathlib

/-!
Verification of the TTST coupled-oscillator engine.

Shallow embedding of `src/coupled_oscillators.py` (Kuramoto phase coupling,
coupled Van der Pol oscillators, order parameter, Arnold-tongue sweep,
stochastic resonance, SNR) with theorems settling the specification claims.

NumPy float arrays are modelled by real-valued vectors (`Fin n → ℝ`) or
lists; the Arnold-tongue coupling matrix, whose update law is exact
rational arithmetic, is modelled over `ℚ` so that facts about it can be
decided by evaluation.
-/

open Real Complex

namespace TTST

/-! Section: Kuramoto phase-coupling model (`CoupledOscillator.kuramoto_model`)

Source:
```
dphases = self.frequencies.copy()
for i in range(self.n_oscillators):
    coupling_term = 0
    for j in range(self.n_oscillators):
        if i != j:
            coupling_term += self.coupling[i, j] * np.sin(phases[j] - phases[i])
    dphases[i] += coupling_term
```
-/

/-- Embedding of `kuramoto_model`: entry `i` is `ω i` plus the accumulated
coupling terms over `j ≠ i`. -/
noncomputable def kuramoto_model (n : ℕ) (frequencies : Fin n → ℝ)
    (coupling : Fin n → Fin n → ℝ) (phases : Fin n → ℝ) : Fin n → ℝ :=
  fun i => frequencies i +
    ∑ j, (if i ≠ j then coupling i j * Real.sin (phases j - phases i) else 0)

/-! Section: Order parameter (`calculate_order_parameter`)

Source:
```
complex_phases = np.exp(1j * phases)
r = np.abs(np.mean(complex_phases, axis=1))
```
applied row-wise to a (T × N) phase trajectory. -/

/-- Order parameter of one row of phases: modulus of the mean of `exp(i·θ)`
across the `n` oscillators. -/
noncomputable def order_parameter_row (n : ℕ) (phases : Fin n → ℝ) : ℝ :=
  Complex.abs ((∑ j, Complex.exp (Complex.I * (phases j : ℂ))) / (n : ℂ))

/-- Embedding of `calculate_order_parameter`: one order-parameter value per
time step of the trajectory. -/
noncomputable def calculate_order_parameter (n : ℕ)
    (phases : List (Fin n → ℝ)) : List ℝ :=
  phases.map (order_parameter_row n)

/-! Section: Coupled Van der Pol oscillators (`van_der_pol_coupled`)

Source:
```
x = state[::2]; v = state[1::2]
dx = v.copy(); dv = np.zeros(n)
for i in range(n):
    dv[i] = mu * (1 - x[i]**2) * v[i] - self.frequencies[i]**2 * x[i]
    for j in range(n):
        if i != j:
            dv[i] += self.coupling[i, j] * (x[j] - x[i])
dstate[::2] = dx; dstate[1::2] = dv
```
The interleaved state `[x_0, v_0, x_1, v_1, ...]` is a vector of length
`2*n`; `state[::2]` and `state[1::2]` are the even/odd stride views. -/

/-- Projection `state[::2]`: position of oscillator `i` in the interleaved state. -/
def vdp_x (n : ℕ) (state : Fin (2 * n) → ℝ) (i : Fin n) : ℝ :=
  state ⟨2 * i.val, by omega⟩

/-- Projection `state[1::2]`: velocity of oscillator `i` in the interleaved state. -/
def vdp_v (n : ℕ) (state : Fin (2 * n) → ℝ) (i : Fin n) : ℝ :=
  state ⟨2 * i.val + 1, by omega⟩

/-- Embedding of `van_der_pol_coupled`: de-interleave, compute `dx = v` and
the Van der Pol + diffusive-coupling velocity derivative, re-interleave. -/
noncomputable def van_der_pol_coupled (n : ℕ) (frequencies : Fin n → ℝ)
    (coupling : Fin n → Fin n → ℝ) (mu : ℝ) (state : Fin (2 * n) → ℝ) :
    Fin (2 * n) → ℝ :=
  fun k =>
    if k.val % 2 = 0 then
      vdp_v n state ⟨k.val / 2, by omega⟩
    else
      let i : Fin n := ⟨k.val / 2, by omega⟩
      mu * (1 - (vdp_x n state i) ^ 2) * vdp_v n state i
        - (frequencies i) ^ 2 * vdp_x n state i
        + ∑ j, (if i ≠ j then coupling i j * (vdp_x n state j - vdp_x n state i)
                else 0)

/-! Section: Biological feedback (`TTSTCoupledSystem.biological_feedback`)

Source:
```
base_dynamics = self.van_der_pol_coupled(state, t)   # default mu = 1.0
x = state[::2]
combined = np.sum(self.amplitudes * x)
feedback = np.zeros_like(base_dynamics)
feedback[1::2] = feedback_strength * combined * x
return base_dynamics + feedback
```
-/

/-- Embedding of `biological_feedback`: the base Van der Pol derivative
(with the default `mu = 1`) plus a mean-field feedback on the velocity
slots. -/
noncomputable def biological_feedback (n : ℕ) (frequencies : Fin n → ℝ)
    (amplitudes : Fin n → ℝ) (coupling : Fin n → Fin n → ℝ)
    (feedback_strength : ℝ) (state : Fin (2 * n) → ℝ) : Fin (2 * n) → ℝ :=
  let base := van_der_pol_coupled n frequencies coupling 1 state
  let combined := ∑ i, amplitudes i * vdp_x n state i
  let feedback : Fin (2 * n) → ℝ := fun k =>
    if k.val % 2 = 0 then 0
    else feedback_strength * combined * vdp_x n state ⟨k.val / 2, by omega⟩
  fun k => base k + feedback k

/-! Section: Ratio-lock score (inside `arnold_tongue_analysis`)

Source:
```
phase_diff = p * phases[:, 0] - q * phases[:, 1]
phase_diff_wrapped = np.mod(phase_diff, 2*np.pi)
sync_measure = 1 / (1 + np.var(phase_diff_wrapped[-1000:]))
```
The two phase trajectories are the first two columns of the simulated phase
array; they are modelled as one list of pairs. -/

/-- Model of `np.mod(x, 2π)`: wrap a real into `[0, 2π)`. -/
noncomputable def wrap_two_pi (x : ℝ) : ℝ := x - 2 * π * ⌊x / (2 * π)⌋

/-- Model of `np.mean` of a 1-D array. -/
noncomputable def list_mean (l : List ℝ) : ℝ := l.sum / l.length

/-- Model of `np.var` of a 1-D array (population variance, `ddof = 0`). -/
noncomputable def list_var (l : List ℝ) : ℝ :=
  (l.map (fun x => (x - list_mean l) ^ 2)).sum / l.length

/-- Slice `w[-1000:]`: trailing window of the last 1000 samples (all samples when
fewer than 1000 exist). -/
def trailing_window (l : List ℝ) : List ℝ := l.drop (l.length - 1000)

/-- The wrapped phase difference `np.mod(p*θ_a - q*θ_b, 2π)` as a list. -/
noncomputable def wrapped_phase_diff (p q : ℤ) (phases : List (ℝ × ℝ)) :
    List ℝ :=
  (phases.map (fun s => (p : ℝ) * s.1 - (q : ℝ) * s.2)).map wrap_two_pi

/-- Embedding of the ratio-lock score: `1 / (1 + var(wrapped[-1000:]))`. -/
noncomputable def ratio_lock_score (p q : ℤ) (phases : List (ℝ × ℝ)) : ℝ :=
  1 / (1 + list_var (trailing_window (wrapped_phase_diff p q phases)))

/-! Section: Arnold-tongue coupling-strength sweep (`arnold_tongue_analysis`)

Source, inner loop over `coupling_strengths`:
```
for coupling_strength in coupling_strengths:
    self.coupling *= coupling_strength / np.max(self.coupling)
    ...
```
The shared matrix `self.coupling` is rescaled in place each iteration; it is
never reset from a base copy. Matrix values are exact rationals here (the
update law has no transcendental step). In NumPy, once an iteration has
strength 0 the matrix becomes all zeros and the next division `s / max = s/0`
produces `inf`, making every later matrix all-`nan`; in this exact model
`s / 0 = 0` so the matrix simply stays zero — under either convention the
matrix used by later iterations is not the fresh rescale of the base. -/

/-- Row-major entry list of a matrix. -/
def matrix_entries (m : List (List ℚ)) : List ℚ :=
  m.foldr (fun r acc => r ++ acc) []

/-- Model of `np.max` over all entries (`np.max` raises on an empty array; the sweep
only ever applies it to the fixed 3×3 TTST matrix, so the empty case is
given the junk value 0). -/
def matrix_max (m : List (List ℚ)) : ℚ :=
  match matrix_entries m with
  | [] => 0
  | a :: rest => rest.foldl max a

/-- Entrywise scalar multiplication, `m * c`. -/
def matrix_scale (c : ℚ) (m : List (List ℚ)) : List (List ℚ) :=
  m.map (fun r => r.map (fun x => x * c))

/-- One iteration's in-place update `coupling *= s / np.max(coupling)`. -/
def rescale_step (m : List (List ℚ)) (s : ℚ) : List (List ℚ) :=
  matrix_scale (s / matrix_max m) m

/-- The matrix held in `self.coupling` after the strength loop has consumed
the given strengths; the matrix used for iteration `k` (0-based) is
`coupling_after base (strengths.take (k+1))`. -/
def coupling_after (base : List (List ℚ)) (strengths : List ℚ) :
    List (List ℚ) :=
  strengths.foldl rescale_step base

/-- The claim's semantics: rescale a fresh copy of the base matrix to the
target strength, independent of prior iterations. -/
def fresh_rescale (base : List (List ℚ)) (s : ℚ) : List (List ℚ) :=
  matrix_scale (s / matrix_max base) base

/-- The TTST coupling matrix built in `TTSTCoupledSystem.__init__`. -/
def ttst_coupling : List (List ℚ) :=
  [[0, 3/10, 2/10], [3/10, 0, 1/2], [2/10, 1/2, 0]]

/-! Section: Time grids and entry-point validation

`simulate_kuramoto` builds its grid with `t = np.arange(t_span[0],
t_span[1], dt)` and immediately calls the integrator (`odeint`, an external
library routine) on it; `StochasticResonance.simulate` computes
`n_steps = int(duration / dt)` and `t = np.linspace(0, duration, n_steps)`.
Neither entry point inspects the grid or the step: no validation code
exists in the source. -/

/-- Python `int(x)`: truncation toward zero. -/
noncomputable def py_int (x : ℝ) : ℤ := if 0 ≤ x then ⌊x⌋ else -⌊-x⌋

/-- Model of `np.arange(start, stop, step)` for `step ≠ 0`: the
`max 0 ⌈(stop-start)/step⌉` points `start + k*step`. (NumPy raises
`ZeroDivisionError` for `step = 0`; that case is not reached below.) -/
noncomputable def np_arange (start stop step : ℝ) : List ℝ :=
  if step = 0 then []
  else (List.range (⌈(stop - start) / step⌉.toNat)).map
    (fun k => start + k * step)

/-- Entry `np.linspace(start, stop, num)[k]`: `num` evenly spaced points with the
endpoint included. -/
noncomputable def np_linspace_fun (start stop : ℝ) (num : ℕ) (k : ℕ) : ℝ :=
  if num = 1 then start else start + (stop - start) * k / ((num : ℝ) - 1)

/-- Model of `np.linspace(start, stop, num)` as a list. -/
noncomputable def np_linspace (start stop : ℝ) (num : ℕ) : List ℝ :=
  (List.range num).map (np_linspace_fun start stop num)

/-- Error taxonomy of the spec; the source never raises it. -/
inductive SimError
  | invalidInput
deriving DecidableEq

/-- Embedding of `simulate_kuramoto`'s time-grid handling: the entry point
computes `np.arange(t_span[0], t_span[1], dt)` with no validation branch and
hands exactly that grid to the integrator, so an `InvalidInput` failure is
unreachable; the value carried by `.ok` is the grid the integrator receives
(one trajectory row is produced per grid point). -/
noncomputable def simulate_kuramoto_grid (t_span : ℝ × ℝ) (dt : ℝ) :
    Except SimError (List ℝ) :=
  Except.ok (np_arange t_span.1 t_span.2 dt)

/-! Section: Stochastic resonance (`StochasticResonance`)

Source of `simulate` (defaults `a = b = 1` in the potential):
```
n_steps = int(duration / dt)
t = np.linspace(0, duration, n_steps)
signal = signal_amplitude * np.sin(2 * np.pi * self.signal_freq * t)
x = np.zeros(n_steps)
x[0] = np.random.randn()
noise = np.sqrt(2 * self.noise_level * dt) * np.random.randn(n_steps)
for i in range(1, n_steps):
    drift = -self.potential_derivative(x[i-1]) + signal[i]
    x[i] = x[i-1] + drift * dt + noise[i]
```
The random draws are modelled as inputs: `x0` for `x[0]` and `g k` for the
`k`-th standard-normal noise draw. Note the loop reads `signal[i]` — the
drive at the NEW time point — while the potential drift uses `x[i-1]`. -/

/-- Embedding of `potential_derivative`: `V'(x) = -a*x + b*x^3`. -/
noncomputable def potential_derivative (x a b : ℝ) : ℝ := -a * x + b * x ^ 3

/-- The Euler–Maruyama recursion of `StochasticResonance.simulate`:
`x[i] = x[i-1] + (-V'(x[i-1]) + signal[i]) * dt + noise[i]`. -/
noncomputable def sr_traj (a b dt : ℝ) (signal noise : ℕ → ℝ) (x0 : ℝ) :
    ℕ → ℝ
  | 0 => x0
  | i + 1 => sr_traj a b dt signal noise x0 i
      + (-(potential_derivative (sr_traj a b dt signal noise x0 i) a b)
          + signal (i + 1)) * dt
      + noise (i + 1)

/-- Number of steps `int(duration / dt)` (clamped at 0 as a natural;
negative counts make NumPy raise when allocating, producing no
trajectory either way). -/
noncomputable def sr_n_steps (duration dt : ℝ) : ℕ :=
  (py_int (duration / dt)).toNat

/-- The drive signal at grid index `k`:
`signal_amplitude * sin(2π * signal_freq * t[k])`. -/
noncomputable def sr_signal (signal_freq duration dt signal_amplitude : ℝ)
    (k : ℕ) : ℝ :=
  signal_amplitude *
    Real.sin (2 * π * signal_freq *
      np_linspace_fun 0 duration (sr_n_steps duration dt) k)

/-- The scaled noise draw at grid index `k`:
`sqrt(2 * noise_level * dt) * randn()`. -/
noncomputable def sr_noise (noise_level dt : ℝ) (g : ℕ → ℝ) (k : ℕ) : ℝ :=
  Real.sqrt (2 * noise_level * dt) * g k

/-- Embedding of `StochasticResonance.simulate`: returns `(t, x, signal)`
as lists of `n_steps` entries. -/
noncomputable def sr_simulate (signal_freq noise_level duration dt
    signal_amplitude : ℝ) (x0 : ℝ) (g : ℕ → ℝ) : List ℝ × List ℝ × List ℝ :=
  let n := sr_n_steps duration dt
  let x := sr_traj 1 1 dt (sr_signal signal_freq duration dt signal_amplitude)
    (sr_noise noise_level dt g) x0
  (np_linspace 0 duration n,
   (List.range n).map x,
   (List.range n).map (sr_signal signal_freq duration dt signal_amplitude))

/-! Section: Signal-to-noise ratio (`calculate_snr`)

Source:
```
fft = np.fft.fft(x)
power = np.abs(fft)**2
freqs = np.fft.fftfreq(len(x))
signal_idx = np.argmin(np.abs(freqs - signal_freq))
signal_power = power[signal_idx]
noise_mask = np.abs(freqs - signal_freq) > 0.01
noise_power = np.mean(power[noise_mask])
snr = 10 * np.log10(signal_power / noise_power)
```
With `noise_power = 0` the float quotient is `inf`/`nan` and the returned
SNR is that nonfinite sentinel, never a finite value; the embedding returns
`none` for it. -/

/-- Discrete Fourier transform bin `k` of a real series (`np.fft.fft`). -/
noncomputable def dft (x : List ℝ) (k : ℕ) : ℂ :=
  ∑ m ∈ Finset.range x.length,
    (x.getD m 0 : ℂ) *
      Complex.exp (-2 * (π : ℂ) * Complex.I * k * m / (x.length : ℂ))

/-- Power `np.abs(fft)**2` at bin `k`. -/
noncomputable def power_spectrum (x : List ℝ) (k : ℕ) : ℝ :=
  (Complex.abs (dft x k)) ^ 2

/-- Model of `np.fft.fftfreq(n)[k]` (normalized frequencies, sample spacing 1). -/
noncomputable def np_fftfreq (n k : ℕ) : ℝ :=
  if k < (n + 1) / 2 then (k : ℝ) / n else ((k : ℝ) - n) / n

/-- First index of a minimal element together with that minimum
(`np.argmin` returns the first occurrence). -/
noncomputable def argmin_pair : List ℝ → ℕ × ℝ
  | [] => (0, 0)
  | a :: rest =>
    match rest with
    | [] => (0, a)
    | b :: t =>
      let p := argmin_pair (b :: t)
      if p.2 < a then (p.1 + 1, p.2) else (0, a)

/-- Distances `np.abs(freqs - signal_freq)` as a list over all bins. -/
noncomputable def freq_dists (x : List ℝ) (f : ℝ) : List ℝ :=
  (List.range x.length).map (fun k => |np_fftfreq x.length k - f|)

/-- Index `signal_idx = np.argmin(np.abs(freqs - signal_freq))`. -/
noncomputable def signal_idx (x : List ℝ) (f : ℝ) : ℕ :=
  (argmin_pair (freq_dists x f)).1

/-- Power `signal_power = power[signal_idx]`. -/
noncomputable def signal_power (x : List ℝ) (f : ℝ) : ℝ :=
  power_spectrum x (signal_idx x f)

/-- Selection `power[noise_mask]`: powers of the bins more than 0.01 away from the
drive frequency. -/
noncomputable def noise_bins (x : List ℝ) (f : ℝ) : List ℝ :=
  ((List.range x.length).filter
    (fun k => decide ((1 : ℝ)/100 < |np_fftfreq x.length k - f|))).map
    (power_spectrum x)

/-- Mean `noise_power = np.mean(power[noise_mask])`. -/
noncomputable def noise_power (x : List ℝ) (f : ℝ) : ℝ :=
  list_mean (noise_bins x f)

/-- Embedding of `calculate_snr`; `none` is the nonfinite sentinel produced
by the float division/log when the noise power vanishes (this also covers
the empty-mask case, where `np.mean` yields `nan`). -/
noncomputable def calculate_snr (x : List ℝ) (f : ℝ) : Option ℝ :=
  if noise_power x f = 0 then none
  else some (10 * Real.logb 10 (signal_power x f / noise_power x f))

end TTST

/-- Accumulating over `j ≠ i` equals summing over `univ.erase i`. -/
theorem sum_ite_ne_eq_erase {n : ℕ} (i : Fin n) (f : Fin n → ℝ) :
    ∑ j, (if i ≠ j then f j else 0) = ∑ j ∈ Finset.univ.erase i, f j := by
  rw [← Finset.sum_filter]
  apply Finset.sum_congr _ (fun j _ => rfl)
  ext j
  simp [Finset.mem_erase, ne_comm, eq_comm]

/-- Claim C2: For every phase vector, frequency vector and coupling matrix,
the Kuramoto derivative's `i`-th entry is `ω i` plus the sum over `j ≠ i` of
`K i j * sin (θ j - θ i)`; the result is unchanged when the diagonal of `K`
is replaced (here: zeroed out), and with `K ≡ 0` it equals `ω` exactly. -/
theorem kuramoto_model_spec (n : ℕ) (ω : Fin n → ℝ) (K : Fin n → Fin n → ℝ)
    (θ : Fin n → ℝ) :
    (∀ i, TTST.kuramoto_model n ω K θ i =
        ω i + ∑ j ∈ Finset.univ.erase i, K i j * Real.sin (θ j - θ i)) ∧
    TTST.kuramoto_model n ω (fun i j => if i = j then 0 else K i j) θ =
        TTST.kuramoto_model n ω K θ ∧
    TTST.kuramoto_model n ω (fun _ _ => 0) θ = ω := by
  refine ⟨fun i => ?_, ?_, ?_⟩
  · unfold TTST.kuramoto_model
    congr 1
    exact sum_ite_ne_eq_erase i _
  · funext i
    unfold TTST.kuramoto_model
    congr 1
    apply Finset.sum_congr rfl
    intro j _
    by_cases h : i = j <;> simp [h]
  · funext i
    simp [TTST.kuramoto_model]

/-- Claim C3: Every order-parameter value of a trajectory lies in `[0,1]`;
a step whose `N ≥ 1` phases are all equal has order parameter exactly `1`;
a step whose `N ≥ 2` phases are uniformly spaced on the circle
(`θ k = 2πk/N`) has order parameter exactly `0`. -/
theorem calculate_order_parameter_spec :
    (∀ (n : ℕ) (P : List (Fin n → ℝ)),
      (TTST.calculate_order_parameter n P).Forall (fun r => 0 ≤ r ∧ r ≤ 1)) ∧
    (∀ (n : ℕ) (c : ℝ), TTST.order_parameter_row (n + 1) (fun _ => c) = 1) ∧
    (∀ m : ℕ, TTST.order_parameter_row (m + 2)
      (fun k => 2 * π * (k : ℝ) / (m + 2)) = 0) := by
  refine ⟨fun n P => ?_, fun n c => ?_, fun m => ?_⟩
  · rw [List.forall_iff_forall_mem]
    intro r hr
    obtain ⟨θ, -, rfl⟩ := List.mem_map.mp hr
    refine ⟨AbsoluteValue.nonneg _ _, ?_⟩
    unfold TTST.order_parameter_row
    rw [map_div₀]
    rcases Nat.eq_zero_or_pos n with h0 | hp
    · subst h0; simp
    · apply div_le_one_of_le₀
      · calc Complex.abs (∑ j, Complex.exp (Complex.I * (θ j : ℂ)))
            ≤ ∑ j, Complex.abs (Complex.exp (Complex.I * (θ j : ℂ))) :=
              AbsoluteValue.sum_le _ _ _
          _ = ∑ _j : Fin n, (1 : ℝ) := by
              refine Finset.sum_congr rfl fun j _ => ?_
              rw [mul_comm, Complex.abs_exp_ofReal_mul_I]
          _ = Complex.abs (n : ℂ) := by simp
      · exact AbsoluteValue.nonneg _ _
  · unfold TTST.order_parameter_row
    rw [Finset.sum_const, Finset.card_univ, Fintype.card_fin, nsmul_eq_mul,
      mul_div_cancel_left₀, mul_comm, Complex.abs_exp_ofReal_mul_I]
    exact Nat.cast_ne_zero.mpr (Nat.succ_ne_zero n)
  · have hζ := Complex.isPrimitiveRoot_exp (m + 2) (by omega)
    push_cast at hζ
    have hterm : ∀ k : Fin (m + 2),
        Complex.exp (Complex.I * ((2 * π * (k : ℝ) / (m + 2) : ℝ) : ℂ)) =
        Complex.exp (2 * (π : ℂ) * Complex.I / ((m : ℂ) + 2)) ^ (k : ℕ) := by
      intro k
      rw [← Complex.exp_nat_mul]
      congr 1
      push_cast
      have hm : ((m : ℂ) + 2) ≠ 0 := by
        intro h
        have : ((m : ℂ) + 2).re = 0 := by rw [h]; rfl
        simp [Complex.add_re] at this
        nlinarith [this, Nat.cast_nonneg (α := ℝ) m]
      field_simp
      ring
    unfold TTST.order_parameter_row
    rw [Finset.sum_congr rfl fun k _ => hterm k]
    rw [Fin.sum_univ_eq_sum_range
      (fun i => Complex.exp (2 * (π : ℂ) * Complex.I / ((m : ℂ) + 2)) ^ i)]
    rw [hζ.geom_sum_eq_zero (by omega)]
    simp

/-- Claim C10: The order parameter of a trajectory is invariant under adding a
global constant `c` to every phase: shifting every entry of every step leaves
`calculate_order_parameter` unchanged at every time step. -/
theorem calculate_order_parameter_shift_invariant (n : ℕ)
    (P : List (Fin n → ℝ)) (c : ℝ) :
    TTST.calculate_order_parameter n (P.map (fun θ j => θ j + c)) =
      TTST.calculate_order_parameter n P := by
  unfold TTST.calculate_order_parameter
  rw [List.map_map]
  congr 1
  funext θ
  show TTST.order_parameter_row n (fun j => θ j + c) =
    TTST.order_parameter_row n θ
  unfold TTST.order_parameter_row
  have hterm : ∀ j : Fin n, Complex.exp (Complex.I * ((θ j + c : ℝ) : ℂ)) =
      Complex.exp (Complex.I * (θ j : ℂ)) * Complex.exp (Complex.I * (c : ℂ)) := by
    intro j
    rw [← Complex.exp_add]
    congr 1
    push_cast
    ring
  rw [Finset.sum_congr rfl fun j _ => hterm j, ← Finset.sum_mul,
    map_div₀, map_div₀, map_mul, mul_comm Complex.I (c : ℂ),
    Complex.abs_exp_ofReal_mul_I, mul_one]

/-- Claim C7: For every interleaved state vector, the amplitude-coupling
derivative has `v i` in the position slot `2*i` and
`mu*(1 - x i^2)*v i - ω i^2 * x i + Σ_{j ≠ i} K i j * (x j - x i)` in the
velocity slot `2*i + 1`, preserving the interleaved element order. -/
theorem van_der_pol_coupled_spec (n : ℕ) (ω : Fin n → ℝ)
    (K : Fin n → Fin n → ℝ) (mu : ℝ) (state : Fin (2 * n) → ℝ) (i : Fin n) :
    TTST.van_der_pol_coupled n ω K mu state
        ⟨2 * i.val, by have := i.isLt; omega⟩ = TTST.vdp_v n state i ∧
    TTST.van_der_pol_coupled n ω K mu state
        ⟨2 * i.val + 1, by have := i.isLt; omega⟩ =
      mu * (1 - (TTST.vdp_x n state i) ^ 2) * TTST.vdp_v n state i
        - (ω i) ^ 2 * TTST.vdp_x n state i
        + ∑ j ∈ Finset.univ.erase i,
            K i j * (TTST.vdp_x n state j - TTST.vdp_x n state i) := by
  constructor
  · simp only [TTST.van_der_pol_coupled]
    rw [if_pos (by omega)]
    congr 1
    exact Fin.ext (by simp)
  · simp only [TTST.van_der_pol_coupled]
    rw [if_neg (by omega)]
    simp only [show (2 * i.val + 1) / 2 = i.val from by omega, Fin.eta]
    congr 1
    exact sum_ite_ne_eq_erase i _

/-- Claim C9: The feedback-augmented derivative agrees with the base Van der
Pol derivative (default `mu = 1`) on every position slot `2*i`, and on every
velocity slot `2*i + 1` exceeds it by exactly
`feedback_strength * (Σ_j amplitudes j * x j) * x i`. -/
theorem biological_feedback_spec (n : ℕ) (ω amps : Fin n → ℝ)
    (K : Fin n → Fin n → ℝ) (fs : ℝ) (state : Fin (2 * n) → ℝ) (i : Fin n) :
    TTST.biological_feedback n ω amps K fs state
        ⟨2 * i.val, by have := i.isLt; omega⟩ =
      TTST.van_der_pol_coupled n ω K 1 state
        ⟨2 * i.val, by have := i.isLt; omega⟩ ∧
    TTST.biological_feedback n ω amps K fs state
        ⟨2 * i.val + 1, by have := i.isLt; omega⟩ =
      TTST.van_der_pol_coupled n ω K 1 state
        ⟨2 * i.val + 1, by have := i.isLt; omega⟩
        + fs * (∑ j, amps j * TTST.vdp_x n state j) * TTST.vdp_x n state i := by
  constructor
  · simp only [TTST.biological_feedback]
    rw [if_pos (by omega), add_zero]
  · simp only [TTST.biological_feedback]
    rw [if_neg (by omega)]
    simp only [show (2 * i.val + 1) / 2 = i.val from by omega, Fin.eta]

/-- A list of reals that sums to zero with all entries nonnegative has only
zero entries. -/
theorem list_sum_eq_zero_of_nonneg {l : List ℝ} (h : ∀ x ∈ l, 0 ≤ x)
    (hs : l.sum = 0) : ∀ x ∈ l, x = 0 := by
  induction l with
  | nil => simp
  | cons a t ih =>
    simp only [List.sum_cons] at hs
    have ha : 0 ≤ a := h a (by simp)
    have ht : 0 ≤ t.sum := List.sum_nonneg (fun x hx => h x (by simp [hx]))
    have ha0 : a = 0 := by linarith
    have ht0 : ∀ x ∈ t, x = 0 :=
      ih (fun x hx => h x (by simp [hx])) (by linarith)
    intro x hx
    rcases List.mem_cons.mp hx with rfl | hx
    · exact ha0
    · exact ht0 x hx

/-- A list all of whose entries equal `c` sums to `length * c`. -/
theorem list_sum_of_all_eq {l : List ℝ} {c : ℝ} (h : ∀ x ∈ l, x = c) :
    l.sum = l.length * c := by
  induction l with
  | nil => simp
  | cons a t ih =>
    have ha := h a (by simp)
    have ht := ih (fun x hx => h x (by simp [hx]))
    simp only [List.sum_cons, List.length_cons, ha, ht]
    push_cast
    ring

/-- Nonnegativity of `np.var`. -/
theorem list_var_nonneg (l : List ℝ) : 0 ≤ TTST.list_var l := by
  apply div_nonneg _ (Nat.cast_nonneg _)
  apply List.sum_nonneg
  intro x hx
  obtain ⟨y, -, rfl⟩ := List.mem_map.mp hx
  positivity

/-- The population variance of a nonempty list vanishes exactly when the
list is constant. -/
theorem list_var_eq_zero_iff {l : List ℝ} (h : l ≠ []) :
    TTST.list_var l = 0 ↔ ∀ x ∈ l, ∀ y ∈ l, x = y := by
  have hlen : (0 : ℝ) < l.length := by
    exact_mod_cast List.length_pos.mpr h
  constructor
  · intro hv x hx y hy
    have hsum : (l.map (fun x => (x - TTST.list_mean l) ^ 2)).sum = 0 := by
      unfold TTST.list_var at hv
      rcases div_eq_zero_iff.mp hv with h0 | h0
      · exact h0
      · exact absurd h0 (by positivity)
    have hz : ∀ z ∈ l, z = TTST.list_mean l := by
      intro z hz
      have hz2 := list_sum_eq_zero_of_nonneg
        (l := l.map (fun x => (x - TTST.list_mean l) ^ 2))
        (fun u hu => by
          obtain ⟨y, -, rfl⟩ := List.mem_map.mp hu
          positivity)
        hsum _ (List.mem_map_of_mem _ hz)
      have := pow_eq_zero_iff (n := 2) (by norm_num) |>.mp hz2
      linarith [sub_eq_zero.mp this]
    rw [hz x hx, hz y hy]
  · intro hall
    obtain ⟨c, l', rfl⟩ := List.exists_cons_of_ne_nil h
    have hc : ∀ x ∈ c :: l', x = c := fun x hx => hall x hx c (by simp)
    have hmean : TTST.list_mean (c :: l') = c := by
      unfold TTST.list_mean
      rw [list_sum_of_all_eq hc]
      field_simp
    unfold TTST.list_var
    rw [List.map_congr_left (fun x hx => by
      show (x - TTST.list_mean (c :: l')) ^ 2 = (fun _ => (0:ℝ)) x
      rw [hmean, hc x hx]
      ring)]
    simp

/-- Claim C5: The ratio-lock score is `1/(1 + var)` over the trailing window of
the last 1000 wrapped phase-difference samples (all samples when fewer
exist): for every nonempty pair of trajectories it lies in `(0, 1]` and
equals `1` exactly when the wrapped difference is constant over the window;
moreover the window is a suffix of the wrapped series of length
`min 1000 length`. -/
theorem ratio_lock_score_spec (p q : ℤ) (phases : List (ℝ × ℝ))
    (h : phases ≠ []) :
    0 < TTST.ratio_lock_score p q phases ∧
    TTST.ratio_lock_score p q phases ≤ 1 ∧
    (TTST.ratio_lock_score p q phases = 1 ↔
      ∀ x ∈ TTST.trailing_window (TTST.wrapped_phase_diff p q phases),
        ∀ y ∈ TTST.trailing_window (TTST.wrapped_phase_diff p q phases),
          x = y) ∧
    TTST.trailing_window (TTST.wrapped_phase_diff p q phases) <:+
      TTST.wrapped_phase_diff p q phases ∧
    (TTST.trailing_window (TTST.wrapped_phase_diff p q phases)).length =
      min 1000 (TTST.wrapped_phase_diff p q phases).length := by
  set w := TTST.trailing_window (TTST.wrapped_phase_diff p q phases) with hw
  have hwlen : w.length = min 1000 (TTST.wrapped_phase_diff p q phases).length := by
    rw [hw]
    unfold TTST.trailing_window
    rw [List.length_drop]
    omega
  have hwne : w ≠ [] := by
    have hplen : 0 < (TTST.wrapped_phase_diff p q phases).length := by
      unfold TTST.wrapped_phase_diff
      simp only [List.length_map]
      exact List.length_pos.mpr h
    intro hnil
    rw [hnil] at hwlen
    simp at hwlen
    omega
  have hvar := list_var_nonneg w
  have hpos : (0 : ℝ) < 1 + TTST.list_var w := by linarith
  refine ⟨?_, ?_, ?_, ?_, hwlen⟩
  · unfold TTST.ratio_lock_score
    rw [← hw]
    positivity
  · unfold TTST.ratio_lock_score
    rw [← hw]
    rw [div_le_one hpos]
    linarith
  · unfold TTST.ratio_lock_score
    rw [← hw]
    rw [div_eq_one_iff_eq (ne_of_gt hpos)]
    constructor
    · intro h1
      exact (list_var_eq_zero_iff hwne).mp (by linarith)
    · intro hconst
      rw [(list_var_eq_zero_iff hwne).mpr hconst]
      norm_num
  · exact List.drop_suffix _ _

/-- Witness for C5 at the concrete single-sample input `[(0, 0)]` with
ratio `1 : 1`. -/
theorem ratio_lock_score_spec_witness :
    ([((0:ℝ), (0:ℝ))] ≠ []) ∧ 0 < TTST.ratio_lock_score 1 1 [((0:ℝ), (0:ℝ))] :=
  ⟨by simp, (ratio_lock_score_spec 1 1 [((0:ℝ), (0:ℝ))] (by simp)).1⟩

/-- Claim C1: The code rescales the shared coupling matrix in place, so an
iteration's matrix is NOT the fresh rescale of the base matrix and NOT
independent of prior iterations: with the default sweep range the first
strength is 0, which zeroes the shared matrix; the matrix then used by the
second iteration (target strength 1/2) is the zero matrix, while a fresh
rescale of the base to strength 1/2 returns the base matrix itself — and a
sweep whose first iteration already has strength 1/2 uses the base matrix,
so the same target strength yields different matrices under different
histories. -/
theorem arnold_tongue_inplace_rescale_bug :
    TTST.coupling_after TTST.ttst_coupling [0, 1/2] =
      [[0, 0, 0], [0, 0, 0], [0, 0, 0]] ∧
    TTST.fresh_rescale TTST.ttst_coupling (1/2) = TTST.ttst_coupling ∧
    TTST.coupling_after TTST.ttst_coupling [1/2] = TTST.ttst_coupling ∧
    TTST.coupling_after TTST.ttst_coupling [0, 1/2] ≠
      TTST.fresh_rescale TTST.ttst_coupling (1/2) ∧
    TTST.coupling_after TTST.ttst_coupling [0, 1/2] ≠
      TTST.coupling_after TTST.ttst_coupling [1/2] := by
  norm_num [TTST.coupling_after, TTST.rescale_step, TTST.matrix_scale,
    TTST.matrix_max, TTST.matrix_entries, TTST.fresh_rescale,
    TTST.ttst_coupling, max_def, List.replicate]

/-- Element `i` of `(List.range n).map h` under `getD`, for `i < n`. -/
theorem list_range_map_getD (h : ℕ → ℝ) (n i : ℕ) (d : ℝ) (hi : i < n) :
    ((List.range n).map h).getD i d = h i := by
  rw [List.getD_eq_getElem?_getD, List.getElem?_map, List.getElem?_range hi]
  rfl

/-- Claim C6: No integration entry point validates its time grid: the Kuramoto
entry point can never return an `InvalidInput` error, and on a negative step
(`t_span = (0, 100)`, `dt = -0.1`) it succeeds with an EMPTY time grid handed
to the integrator instead of failing fast; likewise the stochastic-resonance
entry point with `duration = 1`, `dt = -0.01` reaches the NumPy allocation
with a negative step count (modelled as zero), producing empty output and no
`InvalidInput` error. -/
theorem time_grid_no_validation :
    (∀ (t_span : ℝ × ℝ) (dt : ℝ),
      TTST.simulate_kuramoto_grid t_span dt ≠
        Except.error TTST.SimError.invalidInput) ∧
    TTST.simulate_kuramoto_grid (0, 100) (-(1/10)) = Except.ok [] ∧
    TTST.sr_simulate 0 0 1 (-(1/100)) 0 0 (fun _ => 0) = ([], [], []) := by
  refine ⟨fun t_span dt => by simp [TTST.simulate_kuramoto_grid], ?_, ?_⟩
  · unfold TTST.simulate_kuramoto_grid TTST.np_arange
    rw [if_neg (by norm_num),
      show (⌈(((0:ℝ), (100:ℝ)).2 - ((0:ℝ), (100:ℝ)).1) / (-(1/10))⌉ : ℤ)
        = -1000 from by
        rw [show (((0:ℝ), (100:ℝ)).2 - ((0:ℝ), (100:ℝ)).1) / (-(1/10))
            = ((-1000 : ℤ) : ℝ) from by norm_num, Int.ceil_intCast]]
    rfl
  · have hn : TTST.sr_n_steps 1 (-(1/100)) = 0 := by
      unfold TTST.sr_n_steps TTST.py_int
      norm_num
    unfold TTST.sr_simulate TTST.np_linspace
    rw [hn]
    simp

/-- Claim C4, counterexample: The claim's step law evaluates the periodic drive
at the CURRENT time point `t[k]`; the code reads `signal[i]` at the NEXT
point. Concretely, with `signal_freq = 1/8`, `noise_level = 0`,
`duration = 2`, `dt = 1`, `signal_amplitude = 1`, `x[0] = 0` and all noise
draws zero, the grid is `t = [0, 2]` and the code produces
`x[1] = sin(2π·(1/8)·t[1]) = sin(π/2) = 1`, while the claim's formula
`x[0] + (-V'(x[0]) + A·sin(2π·f·t[0]))·dt + noise` yields
`sin(0) = 0` — the two differ. -/
theorem sr_drive_time_counterexample :
    (TTST.sr_simulate (1/8) 0 2 1 1 0 (fun _ => 0)).2.1.getD 1 0 = 1 ∧
    (TTST.sr_simulate (1/8) 0 2 1 1 0 (fun _ => 0)).2.1.getD 0 0
      + (-(TTST.potential_derivative
            ((TTST.sr_simulate (1/8) 0 2 1 1 0 (fun _ => 0)).2.1.getD 0 0) 1 1)
         + 1 * Real.sin (2 * π * (1/8) *
            (TTST.sr_simulate (1/8) 0 2 1 1 0 (fun _ => 0)).1.getD 0 0)) * 1
      + TTST.sr_noise 0 1 (fun _ => 0) 0 = 0 ∧
    (1 : ℝ) ≠ 0 := by
  have hn : TTST.sr_n_steps 2 1 = 2 := by
    unfold TTST.sr_n_steps TTST.py_int
    norm_num
    decide
  have ht0 : TTST.np_linspace_fun 0 2 2 0 = 0 := by
    unfold TTST.np_linspace_fun
    norm_num
  have ht1 : TTST.np_linspace_fun 0 2 2 1 = 2 := by
    unfold TTST.np_linspace_fun
    norm_num
  have hs0 : TTST.sr_signal (1/8) 2 1 1 0 = 0 := by
    unfold TTST.sr_signal
    rw [hn, ht0]
    norm_num
  have hs1 : TTST.sr_signal (1/8) 2 1 1 1 = 1 := by
    unfold TTST.sr_signal
    rw [hn, ht1, show 2 * π * (1/8) * 2 = π / 2 from by ring,
      Real.sin_pi_div_two]
    norm_num
  have hnoise : ∀ k, TTST.sr_noise 0 1 (fun _ => 0) k = 0 := by
    intro k
    unfold TTST.sr_noise
    norm_num
  have hx0 : (TTST.sr_simulate (1/8) 0 2 1 1 0 (fun _ => 0)).2.1.getD 0 0
      = 0 := by
    unfold TTST.sr_simulate
    rw [hn, list_range_map_getD _ _ _ _ (by norm_num)]
    rfl
  have hx1 : (TTST.sr_simulate (1/8) 0 2 1 1 0 (fun _ => 0)).2.1.getD 1 0
      = 1 := by
    unfold TTST.sr_simulate
    rw [hn, list_range_map_getD _ _ _ _ (by norm_num)]
    show TTST.sr_traj 1 1 1 (TTST.sr_signal (1/8) 2 1 1)
      (TTST.sr_noise 0 1 (fun _ => 0)) 0 1 = 1
    rw [show (1:ℕ) = 0 + 1 from rfl]
    unfold TTST.sr_traj
    rw [hs1, hnoise]
    unfold TTST.sr_traj TTST.potential_derivative
    norm_num
  have htl : (TTST.sr_simulate (1/8) 0 2 1 1 0 (fun _ => 0)).1.getD 0 0
      = 0 := by
    unfold TTST.sr_simulate TTST.np_linspace
    rw [hn, list_range_map_getD _ _ _ _ (by norm_num)]
    exact ht0
  refine ⟨hx1, ?_, one_ne_zero⟩
  rw [hx0, htl, hnoise]
  unfold TTST.potential_derivative
  norm_num

/-- The defining recurrence of `sr_traj` at a successor step. -/
theorem sr_traj_succ (a b dt : ℝ) (s noi : ℕ → ℝ) (x0 : ℝ) (i : ℕ) :
    TTST.sr_traj a b dt s noi x0 (i + 1) =
      TTST.sr_traj a b dt s noi x0 i
      + (-(TTST.potential_derivative (TTST.sr_traj a b dt s noi x0 i) a b)
          + s (i + 1)) * dt + noi (i + 1) := by
  rfl

/-- Claim C4, amended: For every step `k` with `k+1 < n_steps`, the
stochastic-resonance integration satisfies
`x[k+1] = x[k] + (-V'(x[k]) + A*sin(2π*f*t[k+1]))*dt + noise[k+1]` with
`V'(x) = -a*x + b*x^3` (defaults `a = b = 1`): the potential drift is
evaluated at the current state `x[k]`, but the periodic drive is read at the
NEXT time point `t[k+1]`, and the zero-mean Gaussian draw, scaled by
`sqrt(2*D*dt)`, is the one indexed by the new point. -/
theorem sr_simulate_step (f D duration dt A x0 : ℝ) (g : ℕ → ℝ) (k : ℕ)
    (hk : k + 1 < TTST.sr_n_steps duration dt) :
    (TTST.sr_simulate f D duration dt A x0 g).2.1.getD (k + 1) 0 =
      (TTST.sr_simulate f D duration dt A x0 g).2.1.getD k 0
      + (-(TTST.potential_derivative
            ((TTST.sr_simulate f D duration dt A x0 g).2.1.getD k 0) 1 1)
         + A * Real.sin (2 * π * f *
             (TTST.sr_simulate f D duration dt A x0 g).1.getD (k + 1) 0)) * dt
      + Real.sqrt (2 * D * dt) * g (k + 1) := by
  simp only [TTST.sr_simulate, TTST.np_linspace]
  rw [list_range_map_getD _ _ _ _ hk, list_range_map_getD _ _ _ _ (by omega),
    list_range_map_getD _ _ _ _ hk, sr_traj_succ]
  simp only [TTST.sr_signal, TTST.sr_noise]

/-- Witness for the amended C4 step law at
`f = 0, D = 0, duration = 2, dt = 1, A = 0, x0 = 0, g ≡ 0, k = 0`. -/
theorem sr_simulate_step_witness :
    0 + 1 < TTST.sr_n_steps 2 1 ∧
    (TTST.sr_simulate 0 0 2 1 0 0 (fun _ => 0)).2.1.getD (0 + 1) 0 =
      (TTST.sr_simulate 0 0 2 1 0 0 (fun _ => 0)).2.1.getD 0 0
      + (-(TTST.potential_derivative
            ((TTST.sr_simulate 0 0 2 1 0 0 (fun _ => 0)).2.1.getD 0 0) 1 1)
         + 0 * Real.sin (2 * π * 0 *
             (TTST.sr_simulate 0 0 2 1 0 0 (fun _ => 0)).1.getD (0 + 1) 0)) * 1
      + Real.sqrt (2 * 0 * 1) * (fun _ : ℕ => (0:ℝ)) (0 + 1) := by
  have hlt : 0 + 1 < TTST.sr_n_steps 2 1 := by
    unfold TTST.sr_n_steps TTST.py_int
    norm_num
  exact ⟨hlt, sr_simulate_step 0 0 2 1 0 0 (fun _ => 0) 0 hlt⟩

/-- Unfolding equation of `argmin_pair` on a list with at least two
elements. -/
theorem argmin_pair_cons_cons (a b : ℝ) (t : List ℝ) :
    TTST.argmin_pair (a :: b :: t) =
      if (TTST.argmin_pair (b :: t)).2 < a
      then ((TTST.argmin_pair (b :: t)).1 + 1, (TTST.argmin_pair (b :: t)).2)
      else (0, a) := by
  rfl

/-- On a nonempty list, `argmin_pair` returns an in-range index, the value at
that index, and that value is a lower bound of the whole list. -/
theorem argmin_pair_spec (l : List ℝ) (h : l ≠ []) :
    (TTST.argmin_pair l).1 < l.length ∧
    l.getD (TTST.argmin_pair l).1 0 = (TTST.argmin_pair l).2 ∧
    ∀ i, i < l.length → (TTST.argmin_pair l).2 ≤ l.getD i 0 := by
  induction l with
  | nil => exact absurd rfl h
  | cons a rest ih =>
    cases rest with
    | nil =>
      refine ⟨by simp [TTST.argmin_pair], by simp [TTST.argmin_pair], ?_⟩
      intro i hi
      have hi0 : i = 0 := by simpa [Nat.lt_one_iff] using hi
      subst hi0
      simp [TTST.argmin_pair]
    | cons b t =>
      obtain ⟨h1, h2, h3⟩ := ih (by simp)
      rw  [argmin_pair_cons_cons]
      by_cases hpa : (TTST.argmin_pair (b :: t)).2 < a
      · rw [if_pos hpa]
        refine ⟨by simpa using h1, by simpa using h2, ?_⟩
        intro i hi
        cases i with
        | zero => simpa using le_of_lt hpa
        | succ i =>
          simp only [List.getD_cons_succ]
          exact h3 i (by simpa using hi)
      · rw [if_neg hpa]
        push_neg at hpa
        refine ⟨by simp, by simp, ?_⟩
        intro i hi
        cases i with
        | zero => simp
        | succ i =>
          simp only [List.getD_cons_succ]
          exact le_trans hpa (h3 i (by simpa using hi))

/-- Claim C8: `calculate_snr` returns
`10*log10(signal_power / noise_power)` where the signal power is the power
of the spectrum bin nearest the drive frequency (the `argmin` bin minimizes
`|freqs[k] - f|` over all bins) and the noise power is the mean power over
the bins more than `0.01` away from the drive frequency; when the noise
power is zero the result is the degenerate `none` sentinel (the nonfinite
float in NumPy), never a finite value. -/
theorem calculate_snr_spec (x : List ℝ) (f : ℝ) :
    (TTST.noise_power x f = 0 → TTST.calculate_snr x f = none) ∧
    (TTST.noise_power x f ≠ 0 → TTST.calculate_snr x f =
      some (10 * Real.logb 10
        (TTST.signal_power x f / TTST.noise_power x f))) ∧
    (∀ k, k < x.length →
      |TTST.np_fftfreq x.length (TTST.signal_idx x f) - f| ≤
        |TTST.np_fftfreq x.length k - f|) := by
  refine ⟨fun h => by simp [TTST.calculate_snr, h],
    fun h => by simp [TTST.calculate_snr, h], ?_⟩
  intro k hk
  have hlen : (TTST.freq_dists x f).length = x.length := by
    unfold TTST.freq_dists
    simp
  have hne : TTST.freq_dists x f ≠ [] := by
    intro hnil
    rw [hnil] at hlen
    simp at hlen
    omega
  obtain ⟨h1, h2, h3⟩ := argmin_pair_spec _ hne
  have hd : ∀ i, i < x.length →
      (TTST.freq_dists x f).getD i 0 = |TTST.np_fftfreq x.length i - f| := by
    intro i hi
    unfold TTST.freq_dists
    exact list_range_map_getD _ _ _ _ hi
  calc |TTST.np_fftfreq x.length (TTST.signal_idx x f) - f|
      = (TTST.freq_dists x f).getD (TTST.signal_idx x f) 0 :=
        (hd _ (hlen ▸ h1)).symm
    _ = (TTST.argmin_pair (TTST.freq_dists x f)).2 := h2
    _ ≤ (TTST.freq_dists x f).getD k 0 := h3 k (by omega)
    _ = |TTST.np_fftfreq x.length k - f| := hd k hk

/-- Witness for C8 at the concrete input `x = [0, 0]`, `f = 0`: the noise
power vanishes and the SNR is the `none` sentinel. -/
theorem calculate_snr_spec_witness :
    TTST.noise_power [(0:ℝ), 0] 0 = 0 ∧
    TTST.calculate_snr [(0:ℝ), 0] 0 = none := by
  have hf0 : TTST.np_fftfreq 2 0 = 0 := by
    unfold TTST.np_fftfreq
    norm_num
  have hf1 : TTST.np_fftfreq 2 1 = -(1/2) := by
    unfold TTST.np_fftfreq
    norm_num
  have hdft : TTST.dft [(0:ℝ), 0] 1 = 0 := by
    unfold TTST.dft
    apply Finset.sum_eq_zero
    intro m _
    have hgd : ([(0:ℝ), 0].getD m 0) = 0 := by
      rcases m with _ | _ | m <;> simp [List.getD]
    rw [hgd]
    simp
  have hps : TTST.power_spectrum [(0:ℝ), 0] 1 = 0 := by
    unfold TTST.power_spectrum
    rw [hdft]
    simp
  have hbins : TTST.noise_bins [(0:ℝ), 0] 0 = [0] := by
    unfold TTST.noise_bins
    rw [show [(0:ℝ), 0].length = 2 from rfl,
      show List.range 2 = [0, 1] from rfl]
    rw [List.filter_cons, List.filter_cons]
    simp only [hf0, hf1, decide_eq_true_eq]
    rw [if_neg (by norm_num), if_pos (by rw [show |(-(1/2) : ℝ) - 0| = 1/2
      from by rw [abs_of_nonpos] <;> norm_num]; norm_num)]
    simp [List.filter, hps]
  have hnp : TTST.noise_power [(0:ℝ), 0] 0 = 0 := by
    unfold TTST.noise_power
    rw [hbins]
    simp [TTST.list_mean]
  exact ⟨hnp, (calculate_snr_spec [(0:ℝ), 0] 0).1 hnp⟩
